import Mathlib

/-
Verification development for the Compare-app repository.

The repository ships a single React source file, `frontend/src/App.js`,
which holds the client-side state of an experiment (name, description and an
ordered list of technique inputs), the update operations on that state
(`addTechnique`, `removeTechnique`, `updateTechnique`, `updateMatrix`), and
the submission handler `submitExperiment` that validates the experiment and
posts it to a statistics backend.  The backend itself is not part of the
sources; where a property concerns it, the relevant definitions are modelled
from the specification and marked as such in their doc comments.

JavaScript numbers appearing as confusion-matrix counts are modelled as
`Int` (the UI only ever stores results of `parseInt(value) || 0`), and the
confidence level as `ℚ` (the UI only ever stores one of the exact literals
0.90 / 0.95 / 0.99).
-/

/-- Model of the subset of JS `parseInt(s)` (radix 10) exercised by the app:
skip leading whitespace, read an optional sign and then the longest prefix of
decimal digits; `none` models the `NaN` result when no digit follows.  (The
automatic radix-16 detection for `0x`-prefixed strings is not modelled; no
claim depends on it.) -/
def parseIntJS (s : String) : Option Int :=
  let core : List Char → Option Nat := fun rest =>
    let ds := rest.takeWhile Char.isDigit
    if ds.isEmpty then none
    else some (ds.foldl (fun a c => a * 10 + (c.toNat - 48)) 0)
  match s.data.dropWhile Char.isWhitespace with
  | '-' :: rest => (core rest).map (fun n => -(n : Int))
  | '+' :: rest => (core rest).map (fun n => (n : Int))
  | rest => (core rest).map (fun n => (n : Int))

/-- Model of the JS expression `parseInt(value) || 0` on line 78 of App.js:
a `NaN` (and a parsed 0) collapses to 0, any other parsed integer is kept. -/
def parseIntOr0 (s : String) : Int :=
  match parseIntJS s with
  | none => 0
  | some n => n

/-- Model of JS `String.prototype.trim`: drop whitespace from both ends. -/
def jsTrim (s : String) : String :=
  ⟨((s.data.dropWhile Char.isWhitespace).reverse.dropWhile Char.isWhitespace).reverse⟩

/-- The four counts of a 2x2 confusion matrix as held by the client state
(App.js lines 42-47).  `Int` because the stored values are exactly the
results of `parseInt(value) || 0`. -/
structure ConfusionMatrix where
  true_positive : Int
  false_positive : Int
  false_negative : Int
  true_negative : Int
deriving DecidableEq

/-- One technique entry of the client state (App.js lines 40-49). -/
structure TechniqueInput where
  technique_name : String
  matrix : ConfusionMatrix
  confidence_level : ℚ
deriving DecidableEq

/-- The fresh technique appended by `addTechnique` (App.js lines 40-49). -/
def newTechnique : TechniqueInput :=
  { technique_name := ""
    matrix := { true_positive := 0, false_positive := 0
                true_negative := 0, false_negative := 0 }
    confidence_level := 0.95 }

/-- `addTechnique` (App.js lines 37-51): append a fresh technique. -/
def addTechnique (ts : List TechniqueInput) : List TechniqueInput :=
  ts ++ [newTechnique]

/-- `Array.prototype.map` with an index callback, starting the index at `n`;
used to embed the `techniques.map((tech, i) => ...)` updates. -/
def mapIdxFrom (f : ℕ → TechniqueInput → TechniqueInput) :
    ℕ → List TechniqueInput → List TechniqueInput
  | _, [] => []
  | n, x :: xs => f n x :: mapIdxFrom f (n + 1) xs

/-- `Array.prototype.filter` with an index callback, starting the index at
`n`; used to embed `techniques.filter((_, i) => i !== index)`. -/
def filterIdxFrom (p : ℕ → TechniqueInput → Bool) :
    ℕ → List TechniqueInput → List TechniqueInput
  | _, [] => []
  | n, x :: xs =>
    if p n x then x :: filterIdxFrom p (n + 1) xs else filterIdxFrom p (n + 1) xs

/-- `removeTechnique` (App.js lines 54-59):
`techniques.filter((_, i) => i !== index)`. -/
def removeTechnique (ts : List TechniqueInput) (index : ℕ) : List TechniqueInput :=
  filterIdxFrom (fun i _ => i != index) 0 ts

/-- The dynamic `[field]: value` pairs actually passed to `updateTechnique`
by its two call sites (App.js lines 278 and 295). -/
inductive TechniqueField where
  | techniqueNameField (v : String)
  | confidenceLevelField (v : ℚ)
deriving DecidableEq

/-- The object spread `{ ...tech, [field]: value }` for the two fields used. -/
def setTechniqueField : TechniqueField → TechniqueInput → TechniqueInput
  | .techniqueNameField v, t => { t with technique_name := v }
  | .confidenceLevelField v, t => { t with confidence_level := v }

/-- `updateTechnique` (App.js lines 62-69): map over the technique list,
replacing only the entry at `index` by its field update. -/
def updateTechnique (ts : List TechniqueInput) (index : ℕ)
    (fv : TechniqueField) : List TechniqueInput :=
  mapIdxFrom (fun i t => if i = index then setTechniqueField fv t else t) 0 ts

/-- The four `field` strings passed to `updateMatrix` by the four inputs
(App.js lines 320, 329, 338, 347). -/
inductive MatrixField where
  | truePositiveField
  | falsePositiveField
  | falseNegativeField
  | trueNegativeField
deriving DecidableEq

/-- The object spread `{ ...tech.matrix, [field]: v }` for a matrix field. -/
def setMatrixField (f : MatrixField) (v : Int) (m : ConfusionMatrix) : ConfusionMatrix :=
  match f with
  | .truePositiveField => { m with true_positive := v }
  | .falsePositiveField => { m with false_positive := v }
  | .falseNegativeField => { m with false_negative := v }
  | .trueNegativeField => { m with true_negative := v }

/-- `updateMatrix` (App.js lines 72-82): map over the technique list,
replacing only the entry at `techniqueIndex`, whose matrix gets the named
field set to `parseInt(value) || 0`. -/
def updateMatrix (ts : List TechniqueInput) (techniqueIndex : ℕ)
    (f : MatrixField) (value : String) : List TechniqueInput :=
  mapIdxFrom
    (fun i t =>
      if i = techniqueIndex then
        { t with matrix := setMatrixField f (parseIntOr0 value) t.matrix }
      else t)
    0 ts

/-- The three items of the confidence-level select (App.js lines 301-303),
whose values are the strings "0.90", "0.95", "0.99" fed to `parseFloat`. -/
inductive ConfidencePreset where
  | level90
  | level95
  | level99
deriving DecidableEq

/-- `parseFloat` of the three select-item value strings, as exact rationals. -/
def ConfidencePreset.toRat : ConfidencePreset → ℚ
  | .level90 => 0.90
  | .level95 => 0.95
  | .level99 => 0.99

/-- The UI events of App.js that modify the technique list: the add button
(line 243), the per-technique delete button (line 267), the technique-name
select (line 278), the confidence-level select (line 295) and the four
matrix number inputs (lines 320-347). -/
inductive UIEvent where
  | addTechniqueEvent
  | removeTechniqueEvent (index : ℕ)
  | selectTechniqueNameEvent (index : ℕ) (value : String)
  | selectConfidenceEvent (index : ℕ) (choice : ConfidencePreset)
  | matrixInputEvent (index : ℕ) (f : MatrixField) (value : String)
deriving DecidableEq

/-- One UI event applied to the current technique list. -/
def step (ts : List TechniqueInput) : UIEvent → List TechniqueInput
  | .addTechniqueEvent => addTechnique ts
  | .removeTechniqueEvent i => removeTechnique ts i
  | .selectTechniqueNameEvent i v => updateTechnique ts i (.techniqueNameField v)
  | .selectConfidenceEvent i c => updateTechnique ts i (.confidenceLevelField c.toRat)
  | .matrixInputEvent i f v => updateMatrix ts i f v

/-- The technique list reached from the initial state `[]` (App.js line 31)
by a sequence of UI events. -/
def run (evs : List UIEvent) : List TechniqueInput :=
  evs.foldl step []

/-- The experiment state submitted by the form (App.js lines 28-32). -/
structure Experiment where
  experiment_name : String
  description : String
  techniques : List TechniqueInput
deriving DecidableEq

/-- The observable outcome of `submitExperiment` (App.js lines 85-115):
one of the three validation alerts, or the POST to the backend. -/
inductive SubmitOutcome where
  | missingName
  | insufficientTechniques
  | missingTechniqueName
  | posted
deriving DecidableEq

/-- The validation part of `submitExperiment` (App.js lines 85-105): the
name check, then the technique-count check, then the loop over technique
names, each returning early with its alert; only when all pass is the
request posted (which is the only path on which metric computation is
requested from the backend). -/
def submitExperiment (e : Experiment) : SubmitOutcome :=
  if jsTrim e.experiment_name = "" then .missingName
  else if e.techniques.length < 2 then .insufficientTechniques
  else if e.techniques.any (fun t => jsTrim t.technique_name = "") then .missingTechniqueName
  else .posted

/-- The per-technique proportion statistics of a backend response, as read by
the results view (App.js lines 135-143 and 486-542). -/
structure TechniqueStats where
  sensitivity : ℚ
  specificity : ℚ
  ppv : ℚ
  npv : ℚ
  accuracy : ℚ
  prevalence : ℚ
deriving DecidableEq

/-- One entry of `techniques_results` in a backend response. -/
structure TechniqueResult where
  technique_name : String
  stats : TechniqueStats
  cohen_kappa : ℚ
deriving DecidableEq

/-- The `comparison_summary` block of a backend response (App.js lines
394-414). -/
structure ComparisonSummary where
  best_sensitivity : String
  best_specificity : String
  best_accuracy : String
  best_kappa : String
deriving DecidableEq

/-- The backend response held in the `results` state (App.js line 34). -/
structure ExperimentResult where
  experiment_name : String
  description : String
  techniques_results : List TechniqueResult
  comparison_summary : ComparisonSummary
deriving DecidableEq

/-- The effect of one `submitExperiment` call on the `results` state
(App.js lines 85-115): a failed validation returns before the POST, leaving
`results` untouched; a POST whose computation fails reaches the catch block
(alert only), leaving `results` untouched; only a successful response
reaches `setResults(response.data)`.  The backend is abstracted as a
function from the submitted experiment to a success-or-error outcome. -/
def submitAndSetResults (e : Experiment)
    (server : Experiment → Except String ExperimentResult)
    (results : Option ExperimentResult) : Option ExperimentResult :=
  match submitExperiment e with
  | .posted =>
    match server e with
    | .ok r => some r
    | .error _ => results
  | _ => results

/-- Modelled from the spec: the best-technique selection of the comparison
summary (spec section 4.3) — "select the technique with the strictly
greatest value; on an exact tie, the technique appearing earliest in
submission order wins".  The backend implementing it is not part of the
repository sources.  The fold replaces the running best only on a strictly
greater value, so the earliest maximiser is kept. -/
def bestBy (f : TechniqueResult → ℚ) : List TechniqueResult → Option TechniqueResult
  | [] => none
  | r :: rs => some (rs.foldl (fun b y => if f b < f y then y else b) r)

/-- Modelled from the spec: the four-field comparison summary (spec sections
3 and 4.3), naming the best technique per headline metric; `""` stands for
the never-exercised empty-list case (the engine requires at least two
techniques). -/
def comparisonSummary (rs : List TechniqueResult) : ComparisonSummary :=
  { best_sensitivity :=
      ((bestBy (fun r => r.stats.sensitivity) rs).map (fun r => r.technique_name)).getD ""
    best_specificity :=
      ((bestBy (fun r => r.stats.specificity) rs).map (fun r => r.technique_name)).getD ""
    best_accuracy :=
      ((bestBy (fun r => r.stats.accuracy) rs).map (fun r => r.technique_name)).getD ""
    best_kappa :=
      ((bestBy (fun r => r.cohen_kappa) rs).map (fun r => r.technique_name)).getD "" }

/-- Modelled from the spec: point estimate and Wilson confidence interval of
a binomial proportion `k / n` at critical value `z` (spec section 4.1),
including the zero-denominator policy — when the denominator is 0 the point
estimate is 0.0 and the interval is [0.0, 0.0].  The result triple is
(point, lower, upper); the interval is clamped to [0, 1]. -/
noncomputable def proportionCI (k n : Int) (z : ℝ) : ℝ × ℝ × ℝ :=
  if n = 0 then (0, 0, 0)
  else
    let p : ℝ := (k : ℝ) / (n : ℝ)
    let denom : ℝ := 1 + z ^ 2 / (n : ℝ)
    let center : ℝ := (p + z ^ 2 / (2 * (n : ℝ))) / denom
    let halfWidth : ℝ :=
      z * Real.sqrt (p * (1 - p) / (n : ℝ) + z ^ 2 / (4 * (n : ℝ) ^ 2)) / denom
    (p, max 0 (center - halfWidth), min 1 (center + halfWidth))

/-- Modelled from the spec: the per-technique output of the metric
calculator (spec sections 3 and 4.1), restricted to the fields the claims
are about.  The kappa confidence interval is omitted: the spec leaves its
standard-error formula an open implementation choice (section 9). -/
structure MetricResult where
  sensitivity : ℝ
  sensitivity_ci : ℝ × ℝ
  specificity : ℝ
  specificity_ci : ℝ × ℝ
  ppv : ℝ
  ppv_ci : ℝ × ℝ
  npv : ℝ
  npv_ci : ℝ × ℝ
  accuracy : ℝ
  prevalence : ℝ
  cohen_kappa : ℝ

/-- Modelled from the spec: `compute(matrix, confidence_level)` of the
metric calculator (spec section 4.1), parameterised directly by the critical
value `z` (the mapping from a confidence level to `z` is a separate concern
no claim touches).  Fails with `InvalidMatrixError` when N = 0 or a count is
negative; otherwise all metrics are total, with the zero-denominator policy
of `proportionCI` and kappa defined as 0 when the expected agreement is 1. -/
noncomputable def compute (m : ConfusionMatrix) (z : ℝ) : Except String MetricResult :=
  let tp := m.true_positive
  let fp := m.false_positive
  let fneg := m.false_negative
  let tn := m.true_negative
  let N := tp + fp + fneg + tn
  if N = 0 ∨ tp < 0 ∨ fp < 0 ∨ fneg < 0 ∨ tn < 0 then
    Except.error "InvalidMatrixError"
  else
    let s := proportionCI tp (tp + fneg) z
    let sp := proportionCI tn (tn + fp) z
    let pv := proportionCI tp (tp + fp) z
    let nv := proportionCI tn (tn + fneg) z
    let acc : ℝ := ((tp + tn : Int) : ℝ) / ((N : Int) : ℝ)
    let prev : ℝ := ((tp + fneg : Int) : ℝ) / ((N : Int) : ℝ)
    let pe : ℝ :=
      (((tp + fp : Int) : ℝ) / ((N : Int) : ℝ)) * (((tp + fneg : Int) : ℝ) / ((N : Int) : ℝ)) +
      (((fneg + tn : Int) : ℝ) / ((N : Int) : ℝ)) * (((fp + tn : Int) : ℝ) / ((N : Int) : ℝ))
    Except.ok
      { sensitivity := s.1, sensitivity_ci := s.2
        specificity := sp.1, specificity_ci := sp.2
        ppv := pv.1, ppv_ci := pv.2
        npv := nv.1, npv_ci := nv.2
        accuracy := acc
        prevalence := prev
        cohen_kappa := if pe = 1 then 0 else (acc - pe) / (1 - pe) }

/-! ### List helper lemmas for the indexed map and filter embeddings -/

theorem length_mapIdxFrom (f : ℕ → TechniqueInput → TechniqueInput) :
    ∀ (n : ℕ) (l : List TechniqueInput), (mapIdxFrom f n l).length = l.length := by
  intro n l
  induction l generalizing n with
  | nil => rfl
  | cons x xs ih => simp [mapIdxFrom, ih]

theorem getElem?_mapIdxFrom (f : ℕ → TechniqueInput → TechniqueInput) :
    ∀ (n : ℕ) (l : List TechniqueInput) (j : ℕ),
      (mapIdxFrom f n l)[j]? = (l[j]?).map (f (n + j)) := by
  intro n l
  induction l generalizing n with
  | nil => intro j; simp [mapIdxFrom]
  | cons x xs ih =>
    intro j
    cases j with
    | zero => simp [mapIdxFrom]
    | succ k =>
      simp only [mapIdxFrom, List.getElem?_cons_succ]
      rw [ih (n + 1) k]
      have hn : n + 1 + k = n + (k + 1) := by omega
      rw [hn]

theorem mem_mapIdxFrom_pres (f : ℕ → TechniqueInput → TechniqueInput)
    (P : TechniqueInput → Prop) (hf : ∀ n a, P a → P (f n a)) :
    ∀ (n : ℕ) (l : List TechniqueInput), (∀ a ∈ l, P a) →
      ∀ b ∈ mapIdxFrom f n l, P b := by
  intro n l
  induction l generalizing n with
  | nil => intro _ b hb; simp [mapIdxFrom] at hb
  | cons x xs ih =>
    intro hl b hb
    simp only [mapIdxFrom, List.mem_cons] at hb
    rcases hb with hb | hb
    · exact hb ▸ hf n x (hl x (List.mem_cons_self x xs))
    · exact ih (n + 1) (fun a ha => hl a (List.mem_cons_of_mem x ha)) b hb

theorem mem_of_mem_filterIdxFrom (p : ℕ → TechniqueInput → Bool) :
    ∀ (n : ℕ) (l : List TechniqueInput) (b : TechniqueInput),
      b ∈ filterIdxFrom p n l → b ∈ l := by
  intro n l
  induction l generalizing n with
  | nil => intro b hb; simp [filterIdxFrom] at hb
  | cons x xs ih =>
    intro b hb
    simp only [filterIdxFrom] at hb
    by_cases hp : p n x
    · rw [if_pos hp] at hb
      rcases List.mem_cons.mp hb with hb | hb
      · exact hb ▸ List.mem_cons_self x xs
      · exact List.mem_cons_of_mem x (ih (n + 1) b hb)
    · rw [if_neg hp] at hb
      exact List.mem_cons_of_mem x (ih (n + 1) b hb)

theorem filterIdxFrom_congr (p q : ℕ → TechniqueInput → Bool)
    (h : ∀ n a, p n a = q n a) :
    ∀ (n : ℕ) (l : List TechniqueInput), filterIdxFrom p n l = filterIdxFrom q n l := by
  intro n l
  induction l generalizing n with
  | nil => rfl
  | cons x xs ih => simp only [filterIdxFrom, h, ih]

theorem filterIdxFrom_shift (p : ℕ → TechniqueInput → Bool) :
    ∀ (n : ℕ) (l : List TechniqueInput),
      filterIdxFrom p (n + 1) l = filterIdxFrom (fun j a => p (j + 1) a) n l := by
  intro n l
  induction l generalizing n with
  | nil => rfl
  | cons x xs ih => simp only [filterIdxFrom, ih]

theorem filterIdxFrom_keepAll (p : ℕ → TechniqueInput → Bool) :
    ∀ (n : ℕ) (l : List TechniqueInput), (∀ j a, n ≤ j → p j a = true) →
      filterIdxFrom p n l = l := by
  intro n l
  induction l generalizing n with
  | nil => intro _; rfl
  | cons x xs ih =>
    intro hp
    simp only [filterIdxFrom, if_pos (hp n x le_rfl)]
    rw [ih (n + 1) (fun j a hj => hp j a (Nat.le_of_succ_le hj))]

theorem removeTechnique_take_drop :
    ∀ (ts : List TechniqueInput) (i : ℕ),
      removeTechnique ts i = ts.take i ++ ts.drop (i + 1) := by
  intro ts
  induction ts with
  | nil => intro i; simp [removeTechnique, filterIdxFrom]
  | cons x xs ih =>
    intro i
    cases i with
    | zero =>
      show filterIdxFrom (fun j _ => j != 0) 0 (x :: xs) = xs
      simp only [filterIdxFrom, if_neg (by decide : ¬ ((0 != 0) = true))]
      exact filterIdxFrom_keepAll _ 1 xs
        (fun j a hj => by simp only [bne_iff_ne]; omega)
    | succ k =>
      show filterIdxFrom (fun j _ => j != (k + 1)) 0 (x :: xs) = _
      simp only [filterIdxFrom, if_pos (by simp [bne_iff_ne] : ((0 != k + 1) = true))]
      rw [filterIdxFrom_shift]
      rw [filterIdxFrom_congr (fun j a => j + 1 != k + 1) (fun j _ => j != k)
        (fun n a => by
          by_cases h : n = k
          · simp [h]
          · simp [bne, h, fun hc => h (Nat.add_right_cancel hc)])]
      rw [show filterIdxFrom (fun j _ => j != k) 0 xs = removeTechnique xs k from rfl, ih k]
      simp

theorem run_invariant (P : TechniqueInput → Prop) :
    ∀ (evs : List UIEvent) (ts : List TechniqueInput),
      (∀ t ∈ ts, P t) →
      (∀ ev ∈ evs, ∀ us, (∀ u ∈ us, P u) → ∀ w ∈ step us ev, P w) →
      ∀ w ∈ List.foldl step ts evs, P w := by
  intro evs
  induction evs with
  | nil => intro ts hts _ w hw; exact hts w hw
  | cons ev evs ih =>
    intro ts hts hstep w hw
    simp only [List.foldl_cons] at hw
    exact ih (step ts ev) (hstep ev (List.mem_cons_self ev evs) ts hts)
      (fun e he => hstep e (List.mem_cons_of_mem ev he)) w hw

theorem mem_update_pres (P : TechniqueInput → Prop) (g : TechniqueInput → TechniqueInput)
    (idx : ℕ) (hg : ∀ a, P a → P (g a)) (ts : List TechniqueInput)
    (hts : ∀ a ∈ ts, P a) :
    ∀ b ∈ mapIdxFrom (fun i t => if i = idx then g t else t) 0 ts, P b := by
  refine mem_mapIdxFrom_pres _ P ?_ 0 ts hts
  intro n a ha
  by_cases h : n = idx
  · simpa [h] using hg a ha
  · simpa [h] using ha

theorem foldl_best_decomp (f : TechniqueResult → ℚ) :
    ∀ (xs : List TechniqueResult) (b : TechniqueResult),
      ∃ pre w post, b :: xs = pre ++ w :: post ∧
        xs.foldl (fun acc y => if f acc < f y then y else acc) b = w ∧
        (∀ y ∈ pre, f y < f w) ∧ (∀ y ∈ b :: xs, f y ≤ f w) := by
  intro xs
  induction xs with
  | nil =>
    intro b
    exact ⟨[], b, [], rfl, rfl, by simp, by simp⟩
  | cons y ys ih =>
    intro b
    by_cases h : f b < f y
    · obtain ⟨pre, w, post, hdec, hfold, hpre, hall⟩ := ih y
      have hyw : f y ≤ f w := hall y (List.mem_cons_self _ _)
      refine ⟨b :: pre, w, post, ?_, ?_, ?_, ?_⟩
      · simp [hdec]
      · simpa [if_pos h] using hfold
      · intro z hz
        rcases List.mem_cons.mp hz with hz | hz
        · exact hz ▸ lt_of_lt_of_le h hyw
        · exact hpre z hz
      · intro z hz
        rcases List.mem_cons.mp hz with hz | hz
        · exact hz ▸ le_of_lt (lt_of_lt_of_le h hyw)
        · exact hall z hz
    · obtain ⟨pre, w, post, hdec, hfold, hpre, hall⟩ := ih b
      have hyb : f y ≤ f b := not_lt.mp h
      have hfold2 : (y :: ys).foldl (fun acc z => if f acc < f z then z else acc) b = w := by
        simpa [if_neg h] using hfold
      cases pre with
      | nil =>
        simp only [List.nil_append] at hdec
        obtain ⟨hwb, hpost⟩ := List.cons_eq_cons.mp hdec
        subst hwb
        subst hpost
        refine ⟨[], b, y :: ys, rfl, hfold2, by simp, ?_⟩
        intro z hz
        rcases List.mem_cons.mp hz with hz | hz
        · exact hz ▸ le_rfl
        · rcases List.mem_cons.mp hz with hz | hz
          · exact hz ▸ hyb
          · exact hall z (List.mem_cons_of_mem b hz)
      | cons p pre' =>
        simp only [List.cons_append] at hdec
        obtain ⟨hpb, hys⟩ := List.cons_eq_cons.mp hdec
        subst hpb
        have hbw : f b < f w := hpre b (List.mem_cons_self _ _)
        refine ⟨b :: y :: pre', w, post, ?_, hfold2, ?_, ?_⟩
        · simp [hys]
        · intro z hz
          rcases List.mem_cons.mp hz with hz | hz
          · exact hz ▸ hbw
          · rcases List.mem_cons.mp hz with hz | hz
            · exact hz ▸ lt_of_le_of_lt hyb hbw
            · exact hpre z (List.mem_cons_of_mem b hz)
        · intro z hz
          rcases List.mem_cons.mp hz with hz | hz
          · exact hz ▸ le_of_lt hbw
          · rcases List.mem_cons.mp hz with hz | hz
            · exact hz ▸ le_of_lt (lt_of_le_of_lt hyb hbw)
            · exact hall z (List.mem_cons_of_mem b hz)

theorem bestBy_decomp (f : TechniqueResult → ℚ) (rs : List TechniqueResult)
    (hne : rs ≠ []) :
    ∃ pre w post, rs = pre ++ w :: post ∧ bestBy f rs = some w ∧
      (∀ y ∈ pre, f y < f w) ∧ (∀ y ∈ rs, f y ≤ f w) := by
  cases rs with
  | nil => exact absurd rfl hne
  | cons r rs' =>
    obtain ⟨pre, w, post, hdec, hfold, hpre, hall⟩ := foldl_best_decomp f rs' r
    exact ⟨pre, w, post, hdec, by simp [bestBy, hfold], hpre, hall⟩

/-- Claim C10: `removeTechnique ts i` is `ts` with exactly the element at
position `i` deleted — the remaining elements unchanged and in their
original relative order (equivalently, the prefix before `i` followed by
the suffix after `i`) — and when `i` is not a valid position the list is
returned unchanged. -/
theorem removeTechnique_correct (ts : List TechniqueInput) (i : ℕ) :
    removeTechnique ts i = ts.take i ++ ts.drop (i + 1) ∧
    (ts.length ≤ i → removeTechnique ts i = ts) := by
  refine ⟨removeTechnique_take_drop ts i, fun hi => ?_⟩
  rw [removeTechnique_take_drop ts i, List.take_of_length_le hi,
    List.drop_eq_nil_of_le (by omega), List.append_nil]

/-- Witness for C10: deleting at the out-of-range position 5 of a singleton
list leaves it unchanged. -/
theorem removeTechnique_correct_witness :
    removeTechnique [newTechnique] 5 = [newTechnique] :=
  (removeTechnique_correct [newTechnique] 5).2 (by simp)

/-- Claim C7: each field of the comparison summary names the technique whose
value for that metric is greatest, with an exact tie won by the technique
appearing earliest in submission order — for each of the four headline
metrics the named winner maximises the metric and strictly beats every
earlier technique; in particular, for exactly two techniques of identical
accuracy, `best_accuracy` is the first one's name. -/
theorem comparisonSummary_first_strict_max (rs : List TechniqueResult)
    (hne : rs ≠ []) :
    (∃ pre w post, rs = pre ++ w :: post ∧
      (comparisonSummary rs).best_sensitivity = w.technique_name ∧
      (∀ y ∈ pre, y.stats.sensitivity < w.stats.sensitivity) ∧
      (∀ y ∈ rs, y.stats.sensitivity ≤ w.stats.sensitivity)) ∧
    (∃ pre w post, rs = pre ++ w :: post ∧
      (comparisonSummary rs).best_specificity = w.technique_name ∧
      (∀ y ∈ pre, y.stats.specificity < w.stats.specificity) ∧
      (∀ y ∈ rs, y.stats.specificity ≤ w.stats.specificity)) ∧
    (∃ pre w post, rs = pre ++ w :: post ∧
      (comparisonSummary rs).best_accuracy = w.technique_name ∧
      (∀ y ∈ pre, y.stats.accuracy < w.stats.accuracy) ∧
      (∀ y ∈ rs, y.stats.accuracy ≤ w.stats.accuracy)) ∧
    (∃ pre w post, rs = pre ++ w :: post ∧
      (comparisonSummary rs).best_kappa = w.technique_name ∧
      (∀ y ∈ pre, y.cohen_kappa < w.cohen_kappa) ∧
      (∀ y ∈ rs, y.cohen_kappa ≤ w.cohen_kappa)) ∧
    (∀ r1 r2 : TechniqueResult, r1.stats.accuracy = r2.stats.accuracy →
      (comparisonSummary [r1, r2]).best_accuracy = r1.technique_name) := by
  refine ⟨?_, ?_, ?_, ?_, ?_⟩
  · obtain ⟨pre, w, post, hdec, hbest, hpre, hall⟩ :=
      bestBy_decomp (fun r => r.stats.sensitivity) rs hne
    exact ⟨pre, w, post, hdec, by simp [comparisonSummary, hbest], hpre, hall⟩
  · obtain ⟨pre, w, post, hdec, hbest, hpre, hall⟩ :=
      bestBy_decomp (fun r => r.stats.specificity) rs hne
    exact ⟨pre, w, post, hdec, by simp [comparisonSummary, hbest], hpre, hall⟩
  · obtain ⟨pre, w, post, hdec, hbest, hpre, hall⟩ :=
      bestBy_decomp (fun r => r.stats.accuracy) rs hne
    exact ⟨pre, w, post, hdec, by simp [comparisonSummary, hbest], hpre, hall⟩
  · obtain ⟨pre, w, post, hdec, hbest, hpre, hall⟩ :=
      bestBy_decomp (fun r => r.cohen_kappa) rs hne
    exact ⟨pre, w, post, hdec, by simp [comparisonSummary, hbest], hpre, hall⟩
  · intro r1 r2 htie
    simp [comparisonSummary, bestBy, htie]

/-- Witness for C7: two techniques with identical accuracy 1/2 — the first
submitted, named "A", wins `best_accuracy`. -/
theorem comparisonSummary_first_strict_max_witness :
    (comparisonSummary [⟨"A", ⟨1, 1, 1, 1, 1/2, 1⟩, 0⟩, ⟨"B", ⟨0, 0, 0, 0, 1/2, 0⟩, 0⟩]).best_accuracy = "A" :=
  (comparisonSummary_first_strict_max
      [⟨"A", ⟨1, 1, 1, 1, 1/2, 1⟩, 0⟩, ⟨"B", ⟨0, 0, 0, 0, 1/2, 0⟩, 0⟩]
      (by simp)).2.2.2.2
    ⟨"A", ⟨1, 1, 1, 1, 1/2, 1⟩, 0⟩ ⟨"B", ⟨0, 0, 0, 0, 1/2, 0⟩, 0⟩ rfl

/-- Claim C1: the validation checks of `submitExperiment` run in a fixed
order — experiment name first, then technique count, then the technique
names — the first failing check aborting the submission with its own error
before any later check; the outcome never depends on the matrices (no
matrix-level validation or metric computation happens client-side, and the
request is posted only when all three checks pass); in particular an empty
experiment name is reported even when the matrices are also invalid. -/
theorem submitExperiment_validation_order (e : Experiment) :
    (jsTrim e.experiment_name = "" → submitExperiment e = .missingName) ∧
    (jsTrim e.experiment_name ≠ "" → e.techniques.length < 2 →
      submitExperiment e = .insufficientTechniques) ∧
    (jsTrim e.experiment_name ≠ "" → 2 ≤ e.techniques.length →
      (∃ t ∈ e.techniques, jsTrim t.technique_name = "") →
      submitExperiment e = .missingTechniqueName) ∧
    (∀ g : ConfusionMatrix → ConfusionMatrix,
      submitExperiment
        { e with techniques := e.techniques.map (fun t => { t with matrix := g t.matrix }) } =
      submitExperiment e) ∧
    (submitExperiment e = .posted ↔
      jsTrim e.experiment_name ≠ "" ∧ 2 ≤ e.techniques.length ∧
        ∀ t ∈ e.techniques, jsTrim t.technique_name ≠ "") := by
  refine ⟨?_, ?_, ?_, ?_, ?_⟩
  · intro h1
    simp [submitExperiment, h1]
  · intro h1 h2
    simp [submitExperiment, h1, h2]
  · intro h1 h2 h3
    obtain ⟨t, ht, hemp⟩ := h3
    have hany : e.techniques.any (fun t => jsTrim t.technique_name = "") = true := by
      simp only [List.any_eq_true, decide_eq_true_eq]
      exact ⟨t, ht, hemp⟩
    simp [submitExperiment, h1, Nat.not_lt.mpr h2, hany]
  · intro g
    simp [submitExperiment, List.any_map, Function.comp]
  · unfold submitExperiment
    split_ifs with h1 h2 h3
    · simp [h1]
    · constructor
      · intro hc; exact absurd hc (by simp)
      · intro hc; omega
    · constructor
      · intro hc; exact absurd hc (by simp)
      · intro hc
        simp only [List.any_eq_true, decide_eq_true_eq] at h3
        obtain ⟨t, ht, hemp⟩ := h3
        exact absurd hemp (hc.2.2 t ht)
    · simp only [List.any_eq_true, decide_eq_true_eq] at h3
      push_neg at h3
      exact ⟨fun _ => ⟨h1, Nat.not_lt.mp h2, h3⟩, fun _ => rfl⟩

/-- Witness for C1: an experiment with an empty (whitespace-only) name, too
few techniques and an all-zero (invalid) matrix still reports the missing
name first. -/
theorem submitExperiment_validation_order_witness :
    submitExperiment ⟨"  ", "", [newTechnique]⟩ = .missingName :=
  (submitExperiment_validation_order ⟨"  ", "", [newTechnique]⟩).1 (by decide)

/-- Claim C2: with a non-empty trimmed experiment name, fewer than 2
techniques fail the submission with the insufficient-techniques error, and
the request is never posted (no metric computation is requested). -/
theorem submitExperiment_insufficient (e : Experiment)
    (h1 : jsTrim e.experiment_name ≠ "") (h2 : e.techniques.length < 2) :
    submitExperiment e = .insufficientTechniques ∧ submitExperiment e ≠ .posted := by
  have hout : submitExperiment e = .insufficientTechniques := by
    simp [submitExperiment, h1, h2]
  exact ⟨hout, by simp [hout]⟩

/-- Witness for C2: a named experiment with a single technique. -/
theorem submitExperiment_insufficient_witness :
    submitExperiment ⟨"X", "", [newTechnique]⟩ = .insufficientTechniques ∧
    submitExperiment ⟨"X", "", [newTechnique]⟩ ≠ .posted :=
  submitExperiment_insufficient ⟨"X", "", [newTechnique]⟩ (by decide) (by decide)

/-- Claim C3: past the name and technique-count checks, a technique whose
trimmed name is empty fails the submission with the missing-technique-name
error, and the request is never posted (no metric computation is
requested). -/
theorem submitExperiment_missing_technique_name (e : Experiment)
    (h1 : jsTrim e.experiment_name ≠ "") (h2 : 2 ≤ e.techniques.length)
    (h3 : ∃ t ∈ e.techniques, jsTrim t.technique_name = "") :
    submitExperiment e = .missingTechniqueName ∧ submitExperiment e ≠ .posted := by
  obtain ⟨t, ht, hemp⟩ := h3
  have hany : e.techniques.any (fun t => jsTrim t.technique_name = "") = true := by
    simp only [List.any_eq_true, decide_eq_true_eq]
    exact ⟨t, ht, hemp⟩
  have hout : submitExperiment e = .missingTechniqueName := by
    simp [submitExperiment, h1, Nat.not_lt.mpr h2, hany]
  exact ⟨hout, by simp [hout]⟩

/-- Witness for C3: a named experiment with two techniques whose names were
never selected (still empty). -/
theorem submitExperiment_missing_technique_name_witness :
    submitExperiment ⟨"X", "", [newTechnique, newTechnique]⟩ = .missingTechniqueName ∧
    submitExperiment ⟨"X", "", [newTechnique, newTechnique]⟩ ≠ .posted :=
  submitExperiment_missing_technique_name ⟨"X", "", [newTechnique, newTechnique]⟩
    (by decide) (by decide) ⟨newTechnique, List.mem_cons_self _ _, rfl⟩

/-- Claim C4: the `results` state is replaced only by a fully successful
computation — any validation failure and any error from the backend leave
the previous value untouched. -/
theorem results_replaced_only_on_success (e : Experiment)
    (server : Experiment → Except String ExperimentResult)
    (prev : Option ExperimentResult) :
    (submitExperiment e ≠ .posted → submitAndSetResults e server prev = prev) ∧
    (∀ msg, server e = .error msg → submitAndSetResults e server prev = prev) ∧
    (∀ r, server e = .ok r → submitExperiment e = .posted →
      submitAndSetResults e server prev = some r) ∧
    (submitAndSetResults e server prev ≠ prev →
      ∃ r, submitExperiment e = .posted ∧ server e = Except.ok r ∧
        submitAndSetResults e server prev = some r) := by
  refine ⟨?_, ?_, ?_, ?_⟩
  · intro hnp
    unfold submitAndSetResults
    cases hout : submitExperiment e with
    | posted => exact absurd hout hnp
    | missingName => rfl
    | insufficientTechniques => rfl
    | missingTechniqueName => rfl
  · intro msg herr
    unfold submitAndSetResults
    cases hout : submitExperiment e <;> simp [herr]
  · intro r hok hp
    unfold submitAndSetResults
    rw [hp, hok]
  · intro hch
    unfold submitAndSetResults at hch ⊢
    cases hout : submitExperiment e with
    | posted =>
      cases hsv : server e with
      | ok r => exact ⟨r, rfl, rfl, rfl⟩
      | error msg => rw [hout, hsv] at hch; exact absurd rfl hch
    | missingName => rw [hout] at hch; exact absurd rfl hch
    | insufficientTechniques => rw [hout] at hch; exact absurd rfl hch
    | missingTechniqueName => rw [hout] at hch; exact absurd rfl hch

/-- Witness for C4: a submission failing the name check, against a backend
that would error anyway, leaves the empty results state unchanged. -/
theorem results_replaced_only_on_success_witness :
    submitAndSetResults ⟨"", "", []⟩ (fun _ => Except.error "boom") none = none :=
  (results_replaced_only_on_success ⟨"", "", []⟩ (fun _ => Except.error "boom") none).1
    (by decide)

/-- Counterexample to C5 as stated: adding a technique and typing "-5" into
its true-positive input stores the negative integer -5, so a matrix field
can fail to be non-negative. -/
theorem updateMatrix_negative_counterexample :
    ∃ t ∈ run [UIEvent.addTechniqueEvent,
      UIEvent.matrixInputEvent 0 MatrixField.truePositiveField "-5"],
      t.matrix.true_positive < 0 := by decide

/-- Claim C5 (amended): after any sequence of UI events every matrix field
holds an integer — `updateMatrix` stores the parsed integer of its input,
with non-numeric input stored as 0 — and the four fields are non-negative
provided every matrix input string of the sequence parses to a non-negative
value (the code does not reject a negative numeric input such as "-5"). -/
theorem matrix_fields_parsed_and_nonneg (evs : List UIEvent)
    (hpos : ∀ i f s, UIEvent.matrixInputEvent i f s ∈ evs → 0 ≤ parseIntOr0 s) :
    (∀ t ∈ run evs,
      0 ≤ t.matrix.true_positive ∧ 0 ≤ t.matrix.false_positive ∧
      0 ≤ t.matrix.false_negative ∧ 0 ≤ t.matrix.true_negative) ∧
    (∀ s, parseIntJS s = none → parseIntOr0 s = 0) := by
  constructor
  · refine run_invariant _ evs [] (by simp) ?_
    intro ev hev us hus w hw
    cases ev with
    | addTechniqueEvent =>
      simp only [step, addTechnique] at hw
      rcases List.mem_append.mp hw with h | h
      · exact hus w h
      · have hW := List.mem_singleton.mp h
        subst hW
        exact ⟨le_rfl, le_rfl, le_rfl, le_rfl⟩
    | removeTechniqueEvent i =>
      exact hus w (mem_of_mem_filterIdxFrom (fun j _ => j != i) 0 us w hw)
    | selectTechniqueNameEvent i v =>
      refine mem_update_pres _ _ i ?_ us hus w hw
      intro a ha
      exact ha
    | selectConfidenceEvent i c =>
      refine mem_update_pres _ _ i ?_ us hus w hw
      intro a ha
      exact ha
    | matrixInputEvent i f s =>
      refine mem_update_pres _ _ i ?_ us hus w hw
      intro a ha
      have hs : 0 ≤ parseIntOr0 s := hpos i f s hev
      cases f with
      | truePositiveField => exact ⟨hs, ha.2.1, ha.2.2.1, ha.2.2.2⟩
      | falsePositiveField => exact ⟨ha.1, hs, ha.2.2.1, ha.2.2.2⟩
      | falseNegativeField => exact ⟨ha.1, ha.2.1, hs, ha.2.2.2⟩
      | trueNegativeField => exact ⟨ha.1, ha.2.1, ha.2.2.1, hs⟩
  · intro s hnone
    unfold parseIntOr0
    rw [hnone]

/-- Witness for the amended C5: typing "7" keeps all fields non-negative,
and the non-numeric fallback maps to 0. -/
theorem matrix_fields_parsed_and_nonneg_witness :
    (∀ t ∈ run [UIEvent.addTechniqueEvent,
        UIEvent.matrixInputEvent 0 MatrixField.truePositiveField "7"],
      0 ≤ t.matrix.true_positive ∧ 0 ≤ t.matrix.false_positive ∧
      0 ≤ t.matrix.false_negative ∧ 0 ≤ t.matrix.true_negative) ∧
    (∀ s, parseIntJS s = none → parseIntOr0 s = 0) :=
  matrix_fields_parsed_and_nonneg
    [UIEvent.addTechniqueEvent,
      UIEvent.matrixInputEvent 0 MatrixField.truePositiveField "7"]
    (by
      intro i f s h
      simp only [List.mem_cons, List.not_mem_nil, or_false] at h
      rcases h with h | h
      · exact absurd h (by simp)
      · obtain ⟨hi, hf, hs⟩ := UIEvent.matrixInputEvent.injEq .. ▸ h
        subst hs
        decide)

/-- Claim C6: every technique constructed by the client has a confidence
level equal to one of the presets 0.90, 0.95, 0.99 — a newly added
technique starts at 0.95, and the confidence select can only store one of
the three preset values. -/
theorem confidence_level_presets (evs : List UIEvent) :
    ∀ t ∈ run evs,
      t.confidence_level = 0.90 ∨ t.confidence_level = 0.95 ∨
        t.confidence_level = 0.99 := by
  refine run_invariant _ evs [] (by simp) ?_
  intro ev _ us hus w hw
  cases ev with
  | addTechniqueEvent =>
    simp only [step, addTechnique] at hw
    rcases List.mem_append.mp hw with h | h
    · exact hus w h
    · have hW := List.mem_singleton.mp h
      subst hW
      exact Or.inr (Or.inl rfl)
  | removeTechniqueEvent i =>
    exact hus w (mem_of_mem_filterIdxFrom (fun j _ => j != i) 0 us w hw)
  | selectTechniqueNameEvent i v =>
    refine mem_update_pres _ _ i ?_ us hus w hw
    intro a ha
    exact ha
  | selectConfidenceEvent i c =>
    refine mem_update_pres _ _ i ?_ us hus w hw
    intro a _
    cases c with
    | level90 => exact Or.inl rfl
    | level95 => exact Or.inr (Or.inl rfl)
    | level99 => exact Or.inr (Or.inr rfl)
  | matrixInputEvent i f s =>
    refine mem_update_pres _ _ i ?_ us hus w hw
    intro a ha
    exact ha

/-- Witness for C6: the single technique present after one add event has
confidence level 0.95. -/
theorem confidence_level_presets_witness :
    newTechnique.confidence_level = 0.90 ∨ newTechnique.confidence_level = 0.95 ∨
      newTechnique.confidence_level = 0.99 :=
  confidence_level_presets [UIEvent.addTechniqueEvent] newTechnique
    (List.mem_singleton_self newTechnique)

/-- Claim C9: `updateTechnique` and `updateMatrix` modify only the named
field of the entry at the given index — the list keeps its length and
order, every other index is untouched, and within the addressed technique
(and its matrix) every field other than the named one keeps its value. -/
theorem update_operations_frame (ts : List TechniqueInput) (i : ℕ)
    (fv : TechniqueField) (mf : MatrixField) (v : String) :
    (updateTechnique ts i fv).length = ts.length ∧
    (updateMatrix ts i mf v).length = ts.length ∧
    (∀ j, j ≠ i → (updateTechnique ts i fv)[j]? = ts[j]?) ∧
    (∀ j, j ≠ i → (updateMatrix ts i mf v)[j]? = ts[j]?) ∧
    ((updateTechnique ts i fv)[i]? = (ts[i]?).map (setTechniqueField fv)) ∧
    ((updateMatrix ts i mf v)[i]? =
      (ts[i]?).map (fun t =>
        { t with matrix := setMatrixField mf (parseIntOr0 v) t.matrix })) ∧
    (∀ t, (setTechniqueField fv t).matrix = t.matrix) ∧
    (∀ w t, (setTechniqueField (.techniqueNameField w) t).confidence_level =
      t.confidence_level) ∧
    (∀ c t, (setTechniqueField (.confidenceLevelField c) t).technique_name =
      t.technique_name) ∧
    (∀ (x : ConfusionMatrix) (t : TechniqueInput),
      ({ t with matrix := x } : TechniqueInput).technique_name = t.technique_name ∧
      ({ t with matrix := x } : TechniqueInput).confidence_level = t.confidence_level) ∧
    (∀ x m, mf ≠ .truePositiveField →
      (setMatrixField mf x m).true_positive = m.true_positive) ∧
    (∀ x m, mf ≠ .falsePositiveField →
      (setMatrixField mf x m).false_positive = m.false_positive) ∧
    (∀ x m, mf ≠ .falseNegativeField →
      (setMatrixField mf x m).false_negative = m.false_negative) ∧
    (∀ x m, mf ≠ .trueNegativeField →
      (setMatrixField mf x m).true_negative = m.true_negative) := by
  refine ⟨length_mapIdxFrom _ 0 ts, length_mapIdxFrom _ 0 ts, ?_, ?_, ?_, ?_,
    ?_, fun w t => rfl, fun c t => rfl, fun x t => ⟨rfl, rfl⟩, ?_, ?_, ?_, ?_⟩
  · intro j hj
    rw [updateTechnique, getElem?_mapIdxFrom]
    simp [Nat.zero_add, hj]
  · intro j hj
    rw [updateMatrix, getElem?_mapIdxFrom]
    simp [Nat.zero_add, hj]
  · rw [updateTechnique, getElem?_mapIdxFrom]
    simp [Nat.zero_add]
  · rw [updateMatrix, getElem?_mapIdxFrom]
    simp [Nat.zero_add]
  · intro t
    cases fv <;> rfl
  · intro x m h
    cases mf with
    | truePositiveField => exact absurd rfl h
    | falsePositiveField => rfl
    | falseNegativeField => rfl
    | trueNegativeField => rfl
  · intro x m h
    cases mf with
    | truePositiveField => rfl
    | falsePositiveField => exact absurd rfl h
    | falseNegativeField => rfl
    | trueNegativeField => rfl
  · intro x m h
    cases mf with
    | truePositiveField => rfl
    | falsePositiveField => rfl
    | falseNegativeField => exact absurd rfl h
    | trueNegativeField => rfl
  · intro x m h
    cases mf with
    | truePositiveField => rfl
    | falsePositiveField => rfl
    | falseNegativeField => rfl
    | trueNegativeField => exact absurd rfl h

/-- Witness for C9: updating index 0 of a two-element list leaves the entry
at index 1 untouched, for both operations. -/
theorem update_operations_frame_witness :
    (updateTechnique [newTechnique, newTechnique] 0
        (.techniqueNameField "qPCR"))[1]? = [newTechnique, newTechnique][1]? ∧
    (updateMatrix [newTechnique, newTechnique] 0
        MatrixField.truePositiveField "7")[1]? = [newTechnique, newTechnique][1]? :=
  ⟨(update_operations_frame [newTechnique, newTechnique] 0
      (.techniqueNameField "qPCR") MatrixField.truePositiveField "7").2.2.1 1 (by decide),
    (update_operations_frame [newTechnique, newTechnique] 0
      (.techniqueNameField "qPCR") MatrixField.truePositiveField "7").2.2.2.1 1 (by decide)⟩

/-- Claim C8: for every matrix with non-negative counts and N > 0 the metric
calculator succeeds, and any proportion metric whose denominator is 0 has
point estimate 0.0 with confidence interval [0.0, 0.0]; in particular the
matrix TP=5, FP=0, FN=0, TN=0 yields specificity 0.0 with CI [0.0, 0.0] and
sensitivity 1.0. -/
theorem compute_zero_denominator_policy (m : ConfusionMatrix) (z : ℝ)
    (h0 : 0 ≤ m.true_positive) (h1 : 0 ≤ m.false_positive)
    (h2 : 0 ≤ m.false_negative) (h3 : 0 ≤ m.true_negative)
    (hN : 0 < m.true_positive + m.false_positive + m.false_negative + m.true_negative) :
    ∃ r, compute m z = Except.ok r ∧
      (m.true_positive + m.false_negative = 0 →
        r.sensitivity = 0 ∧ r.sensitivity_ci = (0, 0)) ∧
      (m.true_negative + m.false_positive = 0 →
        r.specificity = 0 ∧ r.specificity_ci = (0, 0)) ∧
      (m.true_positive + m.false_positive = 0 →
        r.ppv = 0 ∧ r.ppv_ci = (0, 0)) ∧
      (m.true_negative + m.false_negative = 0 →
        r.npv = 0 ∧ r.npv_ci = (0, 0)) ∧
      (m = ⟨5, 0, 0, 0⟩ →
        r.specificity = 0 ∧ r.specificity_ci = (0, 0) ∧ r.sensitivity = 1) := by
  have hg : ¬(m.true_positive + m.false_positive + m.false_negative + m.true_negative = 0 ∨
      m.true_positive < 0 ∨ m.false_positive < 0 ∨
      m.false_negative < 0 ∨ m.true_negative < 0) := by
    push_neg
    exact ⟨by omega, h0, h1, h2, h3⟩
  simp only [compute]
  rw [if_neg hg]
  refine ⟨_, rfl, ?_, ?_, ?_, ?_, ?_⟩
  · intro hd
    constructor
    · show (proportionCI m.true_positive (m.true_positive + m.false_negative) z).1 = 0
      rw [hd]
      simp [proportionCI]
    · show (proportionCI m.true_positive (m.true_positive + m.false_negative) z).2 = (0, 0)
      rw [hd]
      simp [proportionCI]
  · intro hd
    constructor
    · show (proportionCI m.true_negative (m.true_negative + m.false_positive) z).1 = 0
      rw [hd]
      simp [proportionCI]
    · show (proportionCI m.true_negative (m.true_negative + m.false_positive) z).2 = (0, 0)
      rw [hd]
      simp [proportionCI]
  · intro hd
    constructor
    · show (proportionCI m.true_positive (m.true_positive + m.false_positive) z).1 = 0
      rw [hd]
      simp [proportionCI]
    · show (proportionCI m.true_positive (m.true_positive + m.false_positive) z).2 = (0, 0)
      rw [hd]
      simp [proportionCI]
  · intro hd
    constructor
    · show (proportionCI m.true_negative (m.true_negative + m.false_negative) z).1 = 0
      rw [hd]
      simp [proportionCI]
    · show (proportionCI m.true_negative (m.true_negative + m.false_negative) z).2 = (0, 0)
      rw [hd]
      simp [proportionCI]
  · intro hm
    subst hm
    refine ⟨?_, ?_, ?_⟩
    · show (proportionCI 0 (0 + 0) z).1 = 0
      norm_num [proportionCI]
    · show (proportionCI 0 (0 + 0) z).2 = (0, 0)
      norm_num [proportionCI]
    · show (proportionCI 5 (5 + 0) z).1 = 1
      norm_num [proportionCI]

/-- Witness for C8: the concrete matrix TP=5, FP=0, FN=0, TN=0 at z = 2. -/
theorem compute_zero_denominator_policy_witness :
    ∃ r, compute ⟨5, 0, 0, 0⟩ 2 = Except.ok r ∧
      r.specificity = 0 ∧ r.specificity_ci = (0, 0) ∧ r.sensitivity = 1 := by
  obtain ⟨r, hok, hs, hsp, hp, hn, hconc⟩ :=
    compute_zero_denominator_policy ⟨5, 0, 0, 0⟩ 2
      (by decide) (by decide) (by decide) (by decide) (by decide)
  exact ⟨r, hok, hconc rfl⟩
